import Mathlib

/-!
# Verification of Trusty-cogs converter and menu logic

Shallow embedding of the pure logic of `src/hockey/helper.py` (argument
converters: dates, teams, players, timezones, leaderboards, standings) and
`src/nasa/menus.py` (the `BaseMenu` page-cycling view), with theorems checking
the natural-language specification's claims against the code.

Python `str` values are modelled as Lean `String`/`List Char`; `re` matching of
the concrete patterns in the source is modelled by explicit matching functions
that follow Python's leftmost-match / ordered-alternation semantics.  Case
folding models ASCII behaviour (the code only distinguishes ASCII case).
-/

namespace TrustyCogs

/-! ## Character and string helpers -/

/-- Numeric value of an ASCII digit character. -/
def digitVal (c : Char) : Nat := c.toNat - 48

theorem toNat_ofNat_valid (n : Nat) (h : n < 55296) : (Char.ofNat n).toNat = n := by
  have hv : n.isValidChar := Or.inl h
  rw [Char.ofNat, dif_pos hv]
  simp [Char.ofNatAux, Char.toNat, UInt32.toNat]

theorem toLower_toUpper (c : Char) : c.toUpper.toLower = c.toLower := by
  by_cases h : c.toNat ≥ 97 ∧ c.toNat ≤ 122
  · have hu : c.toUpper = Char.ofNat (c.toNat - 32) := by rw [Char.toUpper, if_pos h]
    have h1 : (Char.ofNat (c.toNat - 32)).toNat = c.toNat - 32 :=
      toNat_ofNat_valid _ (by omega)
    have h2 : c.toNat - 32 + 32 = c.toNat := by omega
    have hl : c.toLower = c := by rw [Char.toLower, if_neg (by omega)]
    rw [hu, Char.toLower, h1, if_pos (by omega), h2, Char.ofNat_toNat, hl]
  · have hu : c.toUpper = c := by rw [Char.toUpper, if_neg h]
    rw [hu]

theorem toLower_toLower (c : Char) : c.toLower.toLower = c.toLower := by
  by_cases h : c.toNat ≥ 65 ∧ c.toNat ≤ 90
  · have hl : c.toLower = Char.ofNat (c.toNat + 32) := by rw [Char.toLower, if_pos h]
    have h1 : (Char.ofNat (c.toNat + 32)).toNat = c.toNat + 32 :=
      toNat_ofNat_valid _ (by omega)
    rw [hl, Char.toLower, h1, if_neg (by omega)]
  · have hl : c.toLower = c := by rw [Char.toLower, if_neg h]
    rw [hl]
    exact hl

/-- Python `needle in hay` (substring containment) on character lists. -/
def containsList (needle : List Char) : List Char → Bool
  | [] => needle.isEmpty
  | c :: rest => needle.isPrefixOf (c :: rest) || containsList needle rest

/-- Python `needle in hay` on strings (case-sensitive substring test). -/
def containsStr (needle hay : String) : Bool :=
  containsList needle.toList hay.toList

/-- Lowercase a character list (models ASCII `str.lower()`). -/
def lowerList (l : List Char) : List Char := l.map Char.toLower

/-- Lowercase a string (models ASCII `str.lower()`). -/
def lowerStr (s : String) : String := String.mk (lowerList s.toList)

/-- Python `needle.lower() in hay.lower()` (case-insensitive containment). -/
def containsCI (needle hay : String) : Bool :=
  containsList (lowerList needle.toList) (lowerList hay.toList)

theorem containsList_self (l : List Char) : containsList l l = true := by
  cases l with
  | nil => rfl
  | cons c rest =>
    simp only [containsList, Bool.or_eq_true]
    exact Or.inl (List.isPrefixOf_iff_prefix.mpr (List.prefix_refl _))

theorem containsList_eq_false_iff (needle : List Char) (hay : List Char) :
    containsList needle hay = false ↔
      ∀ i, needle.isPrefixOf (hay.drop i) = false := by
  induction hay with
  | nil =>
    cases needle with
    | nil => simp [containsList, List.isPrefixOf, List.isEmpty]
    | cons c r => simp [containsList, List.isPrefixOf, List.isEmpty]
  | cons c rest ih =>
    simp only [containsList, Bool.or_eq_false_iff]
    constructor
    · rintro ⟨h1, h2⟩ i
      cases i with
      | zero => simpa using h1
      | succ j => simpa using (ih.mp h2) j
    · intro h
      exact ⟨by simpa using h 0, ih.mpr fun i => by simpa using h (i + 1)⟩

/-! ## `nasa/menus.py`: `BaseMenu` page cycling

The menu state that pagination touches is `current_page` (a Python `int`,
modelled as `ℤ`).  The page source reports `get_max_pages()`, modelled as
`Option ℤ` (`none` when the source reports no maximum).  `show_page` stores the
page number it is given; `show_checked_page` wraps out-of-range requests.
-/

namespace Menus

/-- `BaseMenu.show_page`: sets `current_page` to the requested page. -/
def showPage (pageNumber : Int) (_currentPage : Int) : Int := pageNumber

/-- `BaseMenu.show_checked_page`: wraps the requested page into range when the
source reports a maximum page count, otherwise shows it unchecked. -/
def showCheckedPage (maxPages : Option Int) (pageNumber : Int) (currentPage : Int) : Int :=
  match maxPages with
  | none => showPage pageNumber currentPage
  | some n =>
    if pageNumber ≥ n then showPage 0 currentPage
    else if pageNumber < 0 then showPage (n - 1) currentPage
    else showPage pageNumber currentPage

/-- The four pagination buttons of `BaseMenu`. -/
inductive MenuButton where
  | firstItem
  | back
  | forward
  | lastItem
deriving DecidableEq

/-- Effect of one button press on `current_page` (from the `callback` methods of
`FirstItemButton`, `BackButton`, `ForwardButton`, `LastItemButton`). -/
def pressButton (maxPages : Option Int) : MenuButton → Int → Int
  | .forward, cur => showCheckedPage maxPages (cur + 1) cur
  | .back, cur => showCheckedPage maxPages (cur - 1) cur
  | .firstItem, cur => showPage 0 cur
  | .lastItem, cur =>
    match maxPages with
    | none => cur
    | some n => showPage (n - 1) cur

/-- `BaseMenu.__init__` with `page_start`: the initial `current_page`. -/
def menuInit (pageStart : Int) : Int := pageStart

/-- A sequence of button presses, applied in order. -/
def runPresses (maxPages : Option Int) (presses : List MenuButton) (start : Int) : Int :=
  presses.foldl (fun cur b => pressButton maxPages b cur) start

theorem pressButton_range (n : Int) (hn : 1 ≤ n) (b : MenuButton) (cur : Int)
    (h0 : 0 ≤ cur) (h1 : cur < n) :
    0 ≤ pressButton (some n) b cur ∧ pressButton (some n) b cur < n := by
  cases b <;> simp only [pressButton, showCheckedPage, showPage] <;>
    (try split_ifs) <;> omega

end Menus

/-- C1: with a page source reporting `N ≥ 1` maximum pages and current page `p`
with `0 ≤ p < N`, the forward button shows page `p+1` when `p+1 < N` and wraps
to page `0` when `p+1 ≥ N`, and the back button shows page `p-1` when `p ≥ 1`
and wraps to page `N-1` when `p = 0`. -/
theorem forward_back_cycle (n p : Int) (hn : 1 ≤ n) (h0 : 0 ≤ p) (h1 : p < n) :
    (Menus.pressButton (some n) .forward p = if p + 1 < n then p + 1 else 0) ∧
    (Menus.pressButton (some n) .back p = if 1 ≤ p then p - 1 else n - 1) := by
  constructor <;>
    simp only [Menus.pressButton, Menus.showCheckedPage, Menus.showPage] <;>
    split_ifs <;> omega

theorem forward_back_cycle_witness :
    (1 ≤ (3 : Int) ∧ 0 ≤ (2 : Int) ∧ (2 : Int) < 3) ∧
    (Menus.pressButton (some 3) .forward 2 = if (2 : Int) + 1 < 3 then 2 + 1 else 0) ∧
    (Menus.pressButton (some 3) .back 2 = if (1 : Int) ≤ 2 then 2 - 1 else 3 - 1) :=
  ⟨by norm_num, forward_back_cycle 3 2 (by norm_num) (by norm_num) (by norm_num)⟩

/-- C2: a menu started with `page_start = 0` over a source with `N ≥ 1` pages
keeps `0 ≤ current_page < N` after any sequence of first-item, back, forward
and last-item button presses. -/
theorem current_page_invariant (n : Int) (hn : 1 ≤ n) (presses : List Menus.MenuButton) :
    0 ≤ Menus.runPresses (some n) presses (Menus.menuInit 0) ∧
    Menus.runPresses (some n) presses (Menus.menuInit 0) < n := by
  have key : ∀ (l : List Menus.MenuButton) (cur : Int), 0 ≤ cur → cur < n →
      0 ≤ Menus.runPresses (some n) l cur ∧ Menus.runPresses (some n) l cur < n := by
    intro l
    induction l with
    | nil => intro cur h0 h1; exact ⟨h0, h1⟩
    | cons b rest ih =>
      intro cur h0 h1
      have hb := Menus.pressButton_range n hn b cur h0 h1
      exact ih _ hb.1 hb.2
  exact key presses (Menus.menuInit 0) le_rfl (by simpa [Menus.menuInit] using hn)

theorem current_page_invariant_witness :
    1 ≤ (2 : Int) ∧
    (0 ≤ Menus.runPresses (some 2)
        [.back, .forward, .forward, .lastItem, .forward, .firstItem, .back] (Menus.menuInit 0) ∧
      Menus.runPresses (some 2)
        [.back, .forward, .forward, .lastItem, .forward, .firstItem, .back] (Menus.menuInit 0) < 2) :=
  ⟨by norm_num, current_page_invariant 2 (by norm_num)
    [.back, .forward, .forward, .lastItem, .forward, .firstItem, .back]⟩

/-! ## `hockey/helper.py`: Python `str.title()` model

`str.title()` uppercases every character that follows a non-cased character and
lowercases the rest (ASCII model: cased = alphabetic).
-/

def pyTitleAux : Bool → List Char → List Char
  | _, [] => []
  | prevCased, c :: rest =>
    (if prevCased then c.toLower else c.toUpper) :: pyTitleAux c.isAlpha rest

/-- Python `argument.title()` (ASCII model). -/
def pyTitle (s : String) : String := String.mk (pyTitleAux false s.toList)

theorem lowerList_pyTitleAux (b : Bool) (l : List Char) :
    lowerList (pyTitleAux b l) = lowerList l := by
  induction l generalizing b with
  | nil => rfl
  | cons c rest ih =>
    simp only [pyTitleAux, lowerList, List.map_cons]
    refine congrArg₂ _ ?_ (ih c.isAlpha)
    by_cases hb : b
    · simp [hb, toLower_toLower]
    · simp [hb, toLower_toUpper]

theorem lowerStr_pyTitle (s : String) : lowerStr (pyTitle s) = lowerStr s := by
  simp only [lowerStr, pyTitle]
  exact congrArg String.mk (lowerList_pyTitleAux false s.toList)

/-! ## `hockey/helper.py`: `StandingsFinder`

`convert` tries an exact `Divisions`/`Conferences` enum lookup of
`argument.title()`, then the literals `all`/`league`, and, when all that left
the result empty, a substring fallback over the division and conference names
(last hit wins); `transform` lacks the fallback.  Both lowercase the result.
-/

def divisionNames : List String := ["Metropolitan", "Atlantic", "Central", "Pacific"]

def conferenceNames : List String := ["Eastern", "Western"]

/-- The part shared by `StandingsFinder.convert` and `StandingsFinder.transform`:
exact enum-value lookups followed by the `all`/`league` checks, before the final
`.lower()`. -/
def standingsExact (argument : String) : String :=
  let t := pyTitle argument
  let r1 := if t = "Metropolitan" ∨ t = "Atlantic" ∨ t = "Central" ∨ t = "Pacific" then t else ""
  let r2 := if t = "Eastern" ∨ t = "Western" then t else r1
  let r3 := if lowerStr argument = "all" then "all" else r2
  if lowerStr argument = "league" then "league" else r3

/-- The substring fallback loop of `StandingsFinder.convert` (last hit wins). -/
def standingsFallback (argument : String) : String :=
  List.foldl
    (fun r n => if containsStr (lowerStr argument) (lowerStr n) = true then n else r) ""
    (divisionNames ++ conferenceNames)

/-- `StandingsFinder.convert`. -/
def standingsConvert (argument : String) : String :=
  let e := standingsExact argument
  lowerStr (if e = "" then standingsFallback argument else e)

/-- `StandingsFinder.transform`. -/
def standingsTransform (argument : String) : String :=
  lowerStr (standingsExact argument)

theorem contains_lower_of_pyTitle_eq (arg n : String) (h : pyTitle arg = n) :
    containsStr (lowerStr arg) (lowerStr n) = true := by
  have harg : lowerStr arg = lowerStr n := by rw [← h, lowerStr_pyTitle]
  rw [harg]
  exact containsList_self _

theorem standingsFallback_eq_empty_iff (argument : String) :
    standingsFallback argument = "" ↔
      ¬(containsStr (lowerStr argument) (lowerStr "Metropolitan") = true ∨
        containsStr (lowerStr argument) (lowerStr "Atlantic") = true ∨
        containsStr (lowerStr argument) (lowerStr "Central") = true ∨
        containsStr (lowerStr argument) (lowerStr "Pacific") = true ∨
        containsStr (lowerStr argument) (lowerStr "Eastern") = true ∨
        containsStr (lowerStr argument) (lowerStr "Western") = true) := by
  simp only [standingsFallback, divisionNames, conferenceNames, List.cons_append,
    List.nil_append, List.foldl_cons, List.foldl_nil]
  split_ifs <;> simp_all

theorem standingsFallback_mem (argument : String) :
    standingsFallback argument = "" ∨ standingsFallback argument = "Metropolitan" ∨
      standingsFallback argument = "Atlantic" ∨ standingsFallback argument = "Central" ∨
      standingsFallback argument = "Pacific" ∨ standingsFallback argument = "Eastern" ∨
      standingsFallback argument = "Western" := by
  simp only [standingsFallback, divisionNames, conferenceNames, List.cons_append,
    List.nil_append, List.foldl_cons, List.foldl_nil]
  split_ifs <;> tauto

theorem standingsExact_mem (argument : String) :
    standingsExact argument = "" ∨ standingsExact argument = "all" ∨
      standingsExact argument = "league" ∨ standingsExact argument = "Metropolitan" ∨
      standingsExact argument = "Atlantic" ∨ standingsExact argument = "Central" ∨
      standingsExact argument = "Pacific" ∨ standingsExact argument = "Eastern" ∨
      standingsExact argument = "Western" := by
  simp only [standingsExact]
  split_ifs <;> tauto

theorem standingsExact_eq_empty_iff (argument : String) :
    standingsExact argument = "" ↔
      ¬(lowerStr argument = "all" ∨ lowerStr argument = "league" ∨
        pyTitle argument = "Metropolitan" ∨ pyTitle argument = "Atlantic" ∨
        pyTitle argument = "Central" ∨ pyTitle argument = "Pacific" ∨
        pyTitle argument = "Eastern" ∨ pyTitle argument = "Western") := by
  simp only [standingsExact]
  split_ifs with h1 h2 h3 h4
  · simp_all
  · simp_all
  · simp_all
    rcases h3 with h | h <;> simp [h]
  · simp_all
    rcases h4 with h | h | h | h <;> simp [h]
  · simp_all

/-- C10: `StandingsFinder.convert` is total (never raises) and returns one of
`all`, `league`, a lowercase division or conference name, or the empty string;
the result is empty exactly when the argument is neither `all` nor `league`
(case-insensitively) nor a case-insensitive substring of any division or
conference name. -/
theorem standings_convert_range (argument : String) :
    (standingsConvert argument = "all" ∨ standingsConvert argument = "league" ∨
      standingsConvert argument = "metropolitan" ∨ standingsConvert argument = "atlantic" ∨
      standingsConvert argument = "central" ∨ standingsConvert argument = "pacific" ∨
      standingsConvert argument = "eastern" ∨ standingsConvert argument = "western" ∨
      standingsConvert argument = "") ∧
    (standingsConvert argument = "" ↔
      ¬(lowerStr argument = "all" ∨ lowerStr argument = "league" ∨
        containsStr (lowerStr argument) (lowerStr "Metropolitan") = true ∨
        containsStr (lowerStr argument) (lowerStr "Atlantic") = true ∨
        containsStr (lowerStr argument) (lowerStr "Central") = true ∨
        containsStr (lowerStr argument) (lowerStr "Pacific") = true ∨
        containsStr (lowerStr argument) (lowerStr "Eastern") = true ∨
        containsStr (lowerStr argument) (lowerStr "Western") = true)) := by
  constructor
  · simp only [standingsConvert]
    by_cases he : standingsExact argument = ""
    · rw [if_pos he]
      rcases standingsFallback_mem argument with h | h | h | h | h | h | h <;> rw [h] <;> tauto
    · rw [if_neg he]
      rcases standingsExact_mem argument with h | h | h | h | h | h | h | h | h <;>
        first
        | exact absurd h he
        | (rw [h]; tauto)
  · simp only [standingsConvert]
    by_cases he : standingsExact argument = ""
    · rw [if_pos he]
      have hex := (standingsExact_eq_empty_iff argument).mp he
      constructor
      · intro hfb
        have hfb0 : standingsFallback argument = "" := by
          rcases standingsFallback_mem argument with h | h | h | h | h | h | h
          · exact h
          all_goals (rw [h] at hfb; exact absurd hfb (by decide))
        have := (standingsFallback_eq_empty_iff argument).mp hfb0
        tauto
      · intro h
        have hfb0 : standingsFallback argument = "" :=
          (standingsFallback_eq_empty_iff argument).mpr (by tauto)
        rw [hfb0]
        rfl
    · rw [if_neg he]
      constructor
      · intro hlow
        exfalso
        rcases standingsExact_mem argument with h | h | h | h | h | h | h | h | h
        · exact he h
        all_goals (rw [h] at hlow; exact absurd hlow (by decide))
      · intro h
        exfalso
        apply h
        have hdisj : lowerStr argument = "all" ∨ lowerStr argument = "league" ∨
            pyTitle argument = "Metropolitan" ∨ pyTitle argument = "Atlantic" ∨
            pyTitle argument = "Central" ∨ pyTitle argument = "Pacific" ∨
            pyTitle argument = "Eastern" ∨ pyTitle argument = "Western" := by
          by_contra hcon
          exact he ((standingsExact_eq_empty_iff argument).mpr hcon)
        rcases hdisj with h1 | h1 | h1 | h1 | h1 | h1 | h1 | h1
        · tauto
        · tauto
        all_goals
          have hc := contains_lower_of_pyTitle_eq argument _ h1
          tauto

/-! ## `hockey/helper.py`: `LeaderboardFinder` -/

/-- `argument.replace(" ", "_").lower()`. -/
def normalizeLb (argument : String) : String :=
  lowerStr (String.mk (argument.toList.map (fun c => if c = ' ' then '_' else c)))

/-- `LeaderboardFinder.convert`. -/
def leaderboardConvert (argument : String) : String :=
  let t := normalizeLb argument
  if t = "seasonal" ∨ t = "season" then "season"
  else if t = "weekly" ∨ t = "week" then "weekly"
  else if t = "playoffs" ∨ t = "playoff" then "playoffs"
  else if t = "playoffs_weekly" ∨ t = "playoff_weekly" then "playoffs_weekly"
  else if t = "pre-season" ∨ t = "preseason" then "pre-season"
  else if t = "pre-season_weekly" ∨ t = "preseason_weekly" then "pre-season_weekly"
  else if t = "worst" then "worst"
  else "season"

/-- The aliases `LeaderboardFinder.convert` recognizes. -/
def leaderboardAliases : List String :=
  ["seasonal", "season", "weekly", "week", "playoffs", "playoff",
   "playoffs_weekly", "playoff_weekly", "pre-season", "preseason",
   "pre-season_weekly", "preseason_weekly", "worst"]

/-- C8: `LeaderboardFinder.convert` always returns one of the seven leaderboard
literals (it is total, hence never raises), and any argument whose
lowercased/underscored form matches no recognized alias yields `"season"`. -/
theorem leaderboard_total_range (argument : String) :
    (leaderboardConvert argument = "season" ∨ leaderboardConvert argument = "weekly" ∨
      leaderboardConvert argument = "worst" ∨ leaderboardConvert argument = "playoffs" ∨
      leaderboardConvert argument = "playoffs_weekly" ∨
      leaderboardConvert argument = "pre-season" ∨
      leaderboardConvert argument = "pre-season_weekly") ∧
    (normalizeLb argument ∉ leaderboardAliases → leaderboardConvert argument = "season") := by
  constructor
  · simp only [leaderboardConvert]
    split_ifs <;> tauto
  · intro h
    simp only [leaderboardAliases, List.mem_cons, List.not_mem_nil, or_false, not_or] at h
    simp only [leaderboardConvert]
    split_ifs <;> tauto

theorem leaderboard_total_range_witness :
    normalizeLb "banana split" ∉ leaderboardAliases ∧
      leaderboardConvert "banana split" = "season" :=
  ⟨by decide, (leaderboard_total_range "banana split").2 (by decide)⟩

/-! ## `hockey/helper.py`: `PlayerFinder`

`convert` reads the cached `players.json` list and, for each player whose
`fullName` contains the argument case-insensitively, appends players with
`onRoster == "N"` at the end and inserts the others at the front.  The cache
refresh (HTTP fetch and file I/O) is outside the model: the claims quantify
over the cached player list.
-/

structure BasePlayer where
  id : Int
  fullName : String
  onRoster : String
deriving DecidableEq

/-- The accumulation loop of `PlayerFinder.convert` over the cached list. -/
def playerLoop (argument : String) : List BasePlayer → List BasePlayer → List BasePlayer
  | acc, [] => acc
  | acc, p :: rest =>
    if containsCI argument p.fullName then
      if p.onRoster = "N" then playerLoop argument (acc ++ [p]) rest
      else playerLoop argument (p :: acc) rest
    else playerLoop argument acc rest

/-- `PlayerFinder.convert` on a cached player list. -/
def playerFinderConvert (data : List BasePlayer) (argument : String) : List BasePlayer :=
  playerLoop argument [] data

theorem playerLoop_eq (argument : String) (l : List BasePlayer) :
    ∀ acc, playerLoop argument acc l =
      ((l.filter (fun p => containsCI argument p.fullName)).filter
          (fun p => !(p.onRoster == "N"))).reverse
        ++ acc
        ++ (l.filter (fun p => containsCI argument p.fullName)).filter
            (fun p => p.onRoster == "N") := by
  induction l with
  | nil => intro acc; simp [playerLoop]
  | cons p rest ih =>
    intro acc
    by_cases hm : containsCI argument p.fullName = true
    · by_cases hr : p.onRoster = "N"
      · simp [playerLoop, hm, hr, ih, List.filter_cons]
      · simp [playerLoop, hm, hr, ih, List.filter_cons]
    · simp only [Bool.not_eq_true] at hm
      simp [playerLoop, hm, ih, List.filter_cons]

theorem filter_split_perm {α : Type} (q : α → Bool) (l : List α) :
    List.Perm ((l.filter fun x => !(q x)) ++ l.filter q) l := by
  induction l with
  | nil => simp
  | cons a t ih =>
    by_cases hq : q a = true
    · have e1 : (a :: t).filter (fun x => !(q x)) = t.filter (fun x => !(q x)) := by
        simp [List.filter_cons, hq]
      have e2 : (a :: t).filter q = a :: t.filter q := by
        simp [List.filter_cons, hq]
      rw [e1, e2]
      exact List.perm_middle.trans (ih.cons a)
    · have hq' : q a = false := by simpa using hq
      have e1 : (a :: t).filter (fun x => !(q x)) = a :: t.filter (fun x => !(q x)) := by
        simp [List.filter_cons, hq']
      have e2 : (a :: t).filter q = t.filter q := by
        simp [List.filter_cons, hq']
      rw [e1, e2, List.cons_append]
      exact ih.cons a

/-- C7: on every cached player list, `PlayerFinder.convert` returns exactly the
players whose `fullName` contains the argument case-insensitively (as a
permutation of the filtered list), and the result splits into a first part of
players with `onRoster ≠ "N"` followed by the players with `onRoster = "N"`. -/
theorem player_convert_exact (data : List BasePlayer) (argument : String) :
    List.Perm (playerFinderConvert data argument)
        (data.filter (fun p => containsCI argument p.fullName)) ∧
    ∃ l1 l2, playerFinderConvert data argument = l1 ++ l2 ∧
      (∀ p ∈ l1, p.onRoster ≠ "N") ∧ (∀ p ∈ l2, p.onRoster = "N") := by
  have hch := playerLoop_eq argument data []
  rw [playerFinderConvert, hch]
  simp only [List.append_nil, List.nil_append]
  constructor
  · exact ((List.reverse_perm _).append_right _).trans
      (filter_split_perm (fun p : BasePlayer => p.onRoster == "N") _)
  · refine ⟨_, _, rfl, ?_, ?_⟩
    · intro p hp
      have := List.of_mem_filter (List.mem_reverse.mp hp)
      simpa using this
    · intro p hp
      have := List.of_mem_filter hp
      simpa using this

/-! ## `hockey/helper.py`: autocomplete methods (`TeamFinder`, `PlayerFinder`)

`TeamFinder.autocomplete` builds a choice per team key (plus an `All` choice for
`setup`/`add`), filters by a leaked loop variable `d` (the *last* team's data)
and the typed input, and truncates to 25.  `none` models the Python `NameError`
raised when the choice loop runs with `d` never bound (empty team table with an
`All` choice).  `PlayerFinder.autocomplete` filters the cached players by the
typed input and truncates to 25.
-/

structure TeamData where
  name : String
  tri_code : String
  nickname : List String
  active : Bool

/-- `ctx.command.name in ["setup", "add"]`. -/
def includeAllCmd (cmdName : String) : Bool := cmdName = "setup" || cmdName = "add"

/-- `ctx.command.name in ["roster"]`. -/
def includeInactiveCmd (cmdName : String) : Bool := cmdName = "roster"

/-- `TeamFinder.autocomplete`; choices are `(name, value)` pairs. -/
def teamAutocomplete (cmdName : String) (teams : List TeamData) (current : String) :
    Option (List (String × String)) :=
  let teamChoices := teams.map (fun t => (t.name, t.name))
  let teamChoices := if includeAllCmd cmdName then ("All", "all") :: teamChoices else teamChoices
  (teams.getLast?).elim
    (if teamChoices.isEmpty then some [] else none)
    (fun d =>
      some ((teamChoices.filter (fun c =>
        (includeInactiveCmd cmdName || d.active) && containsCI current c.1)).take 25))

/-- `PlayerFinder.autocomplete` on a cached player list. -/
def playerAutocomplete (data : List BasePlayer) (current : String) : List (String × String) :=
  ((data.filter (fun p => containsCI current p.fullName)).map
    (fun p => (p.fullName, p.fullName))).take 25

/-- C9: `TeamFinder.autocomplete` and `PlayerFinder.autocomplete` return at most
25 choices, and every returned choice's name contains the typed input
case-insensitively. -/
theorem autocomplete_bounded (cmdName : String) (teams : List TeamData)
    (data : List BasePlayer) (current : String) :
    (∀ ret, teamAutocomplete cmdName teams current = some ret →
      ret.length ≤ 25 ∧ ∀ c ∈ ret, containsCI current c.1 = true) ∧
    ((playerAutocomplete data current).length ≤ 25 ∧
      ∀ c ∈ playerAutocomplete data current, containsCI current c.1 = true) := by
  constructor
  · intro ret h
    cases hlast : teams.getLast? with
    | none =>
      simp only [teamAutocomplete, hlast, Option.elim] at h
      split at h
      · split at h
        · simp only [Option.some_inj] at h
          cases h
          exact ⟨by simp, by simp⟩
        · exact absurd h (by simp)
      · split at h
        · simp only [Option.some_inj] at h
          cases h
          exact ⟨by simp, by simp⟩
        · exact absurd h (by simp)
    | some d =>
      simp only [teamAutocomplete, hlast, Option.elim, Option.some_inj] at h
      subst h
      constructor
      · exact List.length_take_le _ _
      · intro c hc
        have hmem := List.mem_of_mem_take hc
        have := List.of_mem_filter hmem
        exact (Bool.and_eq_true _ _ |>.mp this).2
  · constructor
    · exact List.length_take_le _ _
    · intro c hc
      have hmem := List.mem_of_mem_take hc
      obtain ⟨p, hp, rfl⟩ := List.mem_map.mp hmem
      simpa using List.of_mem_filter hp

theorem autocomplete_bounded_witness :
    ([(("New York Rangers" : String), ("New York Rangers" : String))].length ≤ 25) :=
  ((autocomplete_bounded "games" [⟨"New York Rangers", "NYR", ["Rangers"], true⟩] [] "ran").1
    [("New York Rangers", "New York Rangers")] (by decide)).1

/-! ## `hockey/helper.py`: `TimezoneFinder`

`TIMEZONE_RE` is the case-insensitive alternation of all `pytz.common_timezones`
names (escaped literals, in list order); `convert` returns `find.group(0)`,
i.e. the matched slice *of the argument in its original casing*, and raises
`BadArgument` when the regex does not match.  The zone list is external data
(`pytz`), so the model is parameterized over it.  Python's leftmost-match
semantics: positions are scanned left to right, and at each position the
alternatives are tried in list order.
-/

/-- First zone of `zones` matching at the start of `s` (case-insensitively),
returning the length of the match. -/
def findZoneAt (zones : List String) (s : List Char) : Option Nat :=
  zones.findSome? (fun z =>
    if (lowerList z.toList).isPrefixOf (lowerList s) then some z.toList.length else none)

/-- `TIMEZONE_RE.search`: leftmost match, returned as the matched slice of the
searched text. -/
def tzSearch (zones : List String) : List Char → Option (List Char)
  | [] => (findZoneAt zones []).elim none (fun n => some (([] : List Char).take n))
  | c :: rest =>
    (findZoneAt zones (c :: rest)).elim (tzSearch zones rest)
      (fun n => some ((c :: rest).take n))

/-- `TimezoneFinder.convert`: `none` models `BadArgument`. -/
def tzFinderConvert (zones : List String) (argument : String) : Option String :=
  (tzSearch zones argument.toList).map String.mk

theorem isPrefixOf_nil_eq {α : Type} [BEq α] (l : List α) :
    l.isPrefixOf ([] : List α) = l.isEmpty := by
  cases l <;> rfl

theorem findZoneAt_eq_none_iff (zones : List String) (s : List Char) :
    findZoneAt zones s = none ↔
      ∀ z ∈ zones, (lowerList z.toList).isPrefixOf (lowerList s) = false := by
  simp only [findZoneAt, List.findSome?_eq_none_iff]
  constructor
  · intro h z hz
    have h1 := h z hz
    cases hb : (lowerList z.toList).isPrefixOf (lowerList s) with
    | false => rfl
    | true =>
      rw [hb] at h1
      simp at h1
  · intro h z hz
    rw [h z hz]
    simp

theorem tzSearch_eq_none_iff (zones : List String) (s : List Char) :
    tzSearch zones s = none ↔
      ∀ z ∈ zones, containsList (lowerList z.toList) (lowerList s) = false := by
  induction s with
  | nil =>
    constructor
    · intro h z hz
      have hfz : findZoneAt zones [] = none := by
        rcases hf : findZoneAt zones [] with _ | n
        · rfl
        · simp only [tzSearch, hf, Option.elim] at h
          exact absurd h (by simp)
      have := (findZoneAt_eq_none_iff zones []).mp hfz z hz
      simpa [containsList, lowerList, isPrefixOf_nil_eq] using this
    · intro h
      have hfz : findZoneAt zones [] = none := by
        rw [findZoneAt_eq_none_iff]
        intro z hz
        have := h z hz
        simpa [containsList, lowerList, isPrefixOf_nil_eq] using this
      simp [tzSearch, hfz, Option.elim]
  | cons c rest ih =>
    constructor
    · intro h z hz
      have hfz : findZoneAt zones (c :: rest) = none := by
        rcases hf : findZoneAt zones (c :: rest) with _ | n
        · rfl
        · simp only [tzSearch, hf, Option.elim] at h
          exact absurd h (by simp)
      simp only [tzSearch, hfz, Option.elim] at h
      have h1 := (findZoneAt_eq_none_iff zones (c :: rest)).mp hfz z hz
      have h2 := ih.mp h z hz
      simp only [lowerList, List.map_cons] at h1 ⊢
      simp only [containsList, Bool.or_eq_false_iff]
      exact ⟨h1, h2⟩
    · intro h
      have hfz : findZoneAt zones (c :: rest) = none := by
        rw [findZoneAt_eq_none_iff]
        intro z hz
        have := h z hz
        simp only [lowerList, List.map_cons, containsList, Bool.or_eq_false_iff] at this
        simpa [lowerList] using this.1
      simp only [tzSearch, hfz, Option.elim]
      exact ih.mpr fun z hz => by
        have := h z hz
        simp only [lowerList, List.map_cons, containsList, Bool.or_eq_false_iff] at this
        simpa [lowerList] using this.2

theorem take_of_lower_isPrefixOf (z s : List Char)
    (hp : (lowerList z).isPrefixOf (lowerList s) = true) :
    lowerList (s.take z.length) = lowerList z := by
  obtain ⟨t, ht⟩ := List.isPrefixOf_iff_prefix.mp hp
  have hlen : (lowerList z).length = z.length := by simp [lowerList]
  calc lowerList (s.take z.length) = (lowerList s).take z.length := by
        simp [lowerList, List.map_take]
    _ = (lowerList z ++ t).take z.length := by rw [ht]
    _ = lowerList z := List.take_left' hlen

theorem tzSearch_eq_some (zones : List String) (s : List Char) :
    ∀ out, tzSearch zones s = some out →
      (∃ z ∈ zones, lowerList out = lowerList z.toList) ∧
        ∃ pre post, s = pre ++ out ++ post := by
  induction s with
  | nil =>
    intro out h
    rcases hf : findZoneAt zones [] with _ | n
    · simp only [tzSearch, hf, Option.elim] at h
      exact absurd h (by simp)
    · simp only [tzSearch, hf, Option.elim, List.take_nil, Option.some_inj] at h
      obtain ⟨z, hz, hfz⟩ := List.exists_of_findSome?_eq_some hf
      split_ifs at hfz with hp
      obtain rfl : ([] : List Char) = out := h
      refine ⟨⟨z, hz, ?_⟩, [], [], by simp⟩
      have h2 := take_of_lower_isPrefixOf z.toList [] hp
      simpa using h2
  | cons c rest ih =>
    intro out h
    rcases hf : findZoneAt zones (c :: rest) with _ | n
    · simp only [tzSearch, hf, Option.elim] at h
      obtain ⟨hz, pre, post, hsplit⟩ := ih out h
      exact ⟨hz, c :: pre, post, by simp [hsplit]⟩
    · simp only [tzSearch, hf, Option.elim, Option.some_inj] at h
      obtain ⟨z, hz, hfz⟩ := List.exists_of_findSome?_eq_some hf
      split_ifs at hfz with hp
      obtain rfl : z.toList.length = n := Option.some_inj.mp hfz
      obtain rfl : (c :: rest).take z.toList.length = out := h
      refine ⟨⟨z, hz, take_of_lower_isPrefixOf z.toList (c :: rest) hp⟩,
        [], (c :: rest).drop z.toList.length, by simp⟩

/-- C5 (amended): `TimezoneFinder.convert` returns the matched slice of the
argument in the argument's original casing — a string that case-insensitively
equals some zone of the list and occurs as a substring of the argument (but
need not itself be a member of the zone list) — and raises `BadArgument`
exactly when no zone name occurs case-insensitively in the argument. -/
theorem tz_convert_characterization (zones : List String) (argument : String) :
    (∀ s, tzFinderConvert zones argument = some s →
      (∃ z ∈ zones, lowerStr s = lowerStr z) ∧
      ∃ pre post, argument.toList = pre ++ s.toList ++ post) ∧
    (tzFinderConvert zones argument = none ↔
      ∀ z ∈ zones, containsCI z argument = false) := by
  constructor
  · intro s h
    simp only [tzFinderConvert, Option.map_eq_some'] at h
    obtain ⟨out, hout, rfl⟩ := h
    obtain ⟨⟨z, hz, hlow⟩, pre, post, hsplit⟩ := tzSearch_eq_some zones argument.toList out hout
    refine ⟨⟨z, hz, ?_⟩, pre, post, by simpa using hsplit⟩
    simpa [lowerStr] using congrArg String.mk hlow
  · simp only [tzFinderConvert, Option.map_eq_none']
    rw [tzSearch_eq_none_iff]
    constructor
    · intro h z hz
      exact h z hz
    · intro h z hz
      exact h z hz

/-- C5 counterexample: on the argument `"us/pacific"` (with `"US/Pacific"` a
common-timezone name), `convert` returns `"us/pacific"`, which is not a member
of the zone list — the claim says the returned value is a member. -/
theorem tz_convert_counterexample :
    tzFinderConvert ["US/Pacific"] "us/pacific" = some "us/pacific" ∧
      "us/pacific" ∉ (["US/Pacific"] : List String) := by
  constructor
  · decide
  · decide

theorem tz_convert_characterization_witness :
    (∃ z ∈ (["US/Pacific", "US/Eastern"] : List String),
        lowerStr "us/eastern" = lowerStr z) ∧
      ∃ pre post, (String.toList "in us/eastern now") =
        pre ++ (String.toList "us/eastern") ++ post :=
  (tz_convert_characterization ["US/Pacific", "US/Eastern"] "in us/eastern now").1
    "us/eastern" (by decide)

/-! ## `hockey/helper.py`: `TeamFinder`

`convert` splits the argument on whitespace and, for each team of `TEAMS`
(skipping keys containing `"Team"` and, except for the `roster` command,
inactive teams), matches each argument token against the case-insensitive
regex `\b(tri_code\b|\bword\b|...|\bnickname\b)` built from the tri-code, the
*individual words* of the team key, and the nicknames.  For `setup`/`add`, the
literal substring `"all"` in the argument adds the key `"all"`.  The result set
is non-deterministically reduced to one element by `list(result)[0]`; the model
keeps table order and returns the head (name parts are matched as literals —
regex metacharacters in team data are not modelled).  `TEAMS` itself is data
external to `src/`, so the model is parameterized over the table.
-/

/-- Python regex word characters, ASCII model (`[A-Za-z0-9_]`). -/
def isWordChar (c : Char) : Bool := c.isAlphanum || c = '_'

/-- `\b`: a position is a word boundary iff exactly one adjacent character is a
word character (text edges count as non-word). -/
def boundaryB (pre post : List Char) : Bool :=
  (pre.getLast?.elim false isWordChar) != (post.head?.elim false isWordChar)

/-- Does `\b<n>\b` match somewhere in `h` (both given as character lists)? -/
def wordOccursList (n h : List Char) : Bool :=
  (List.range (h.length + 1)).any (fun i =>
    n.isPrefixOf (h.drop i) &&
    boundaryB (h.take i) (h.drop i) &&
    boundaryB (h.take (i + n.length)) (h.drop (i + n.length)))

/-- Case-insensitive `\b<needle>\b` match inside `hay` (models `re.I`). -/
def wordOccursCI (needle hay : String) : Bool :=
  wordOccursList (lowerList needle.toList) (lowerList hay.toList)

/-- Python `str.split()`: split on whitespace runs, dropping empty pieces. -/
def splitWsAux : List Char → List Char → List String
  | acc, [] => if acc.isEmpty then [] else [String.mk acc.reverse]
  | acc, c :: rest =>
    if c.isWhitespace then
      (if acc.isEmpty then [] else [String.mk acc.reverse]) ++ splitWsAux [] rest
    else splitWsAux (c :: acc) rest

/-- Python `argument.split()`. -/
def splitWs (s : String) : List String := splitWsAux [] s.toList

/-- One team's compiled pattern matching one argument token: the tri-code, any
word of the team key, or any nickname, with word boundaries, case-insensitive. -/
def teamPatternHits (t : TeamData) (pot : String) : Bool :=
  wordOccursCI t.tri_code pot ||
  (splitWs t.name).any (fun w => wordOccursCI w pot) ||
  t.nickname.any (fun nk => wordOccursCI nk pot)

/-- The condition under which `TeamFinder.convert` adds a team key to `result`. -/
def teamMatchesCode (cmdName : String) (t : TeamData) (argument : String) : Bool :=
  !(containsStr "Team" t.name) &&
  (includeInactiveCmd cmdName || t.active) &&
  (splitWs argument).any (fun pot => teamPatternHits t pot)

/-- `TeamFinder.convert`: `none` models `BadArgument`. -/
def teamFinderConvert (cmdName : String) (teams : List TeamData) (argument : String) :
    Option String :=
  let result := (teams.filter (fun t => teamMatchesCode cmdName t argument)).map (fun t => t.name)
  let result :=
    if includeAllCmd cmdName && containsStr "all" argument then result ++ ["all"] else result
  result.head?

/-- The claim's matching notion: the team's *full name*, tri-code, or a
nickname occurs as a word of the argument (case-insensitively), inactive teams
eligible only for `roster`. -/
def teamMatchesClaim (cmdName : String) (t : TeamData) (argument : String) : Bool :=
  (includeInactiveCmd cmdName || t.active) &&
  (wordOccursCI t.name argument || wordOccursCI t.tri_code argument ||
    t.nickname.any (fun nk => wordOccursCI nk argument))

theorem head?_mem {α : Type} {l : List α} {a : α} (h : l.head? = some a) : a ∈ l := by
  cases l with
  | nil => exact absurd h (by simp)
  | cons b t =>
    simp only [List.head?, Option.some_inj] at h
    exact h ▸ List.mem_cons_self b t

/-- C4 (amended): `TeamFinder.convert` returns a team key such that the
tri-code, *a word of* the full team key, or a nickname occurs as a word of the
argument case-insensitively — with keys containing `"Team"` skipped and
inactive teams eligible only for `roster` — or the string `"all"` when the
command is `setup`/`add` and `"all"` occurs as a substring of the argument; it
raises `BadArgument` exactly when no key matches and the `"all"` case does not
apply. -/
theorem team_convert_characterization (cmdName : String) (teams : List TeamData)
    (argument : String) :
    (∀ k, teamFinderConvert cmdName teams argument = some k →
      (∃ t ∈ teams, t.name = k ∧ teamMatchesCode cmdName t argument = true) ∨
      (k = "all" ∧ includeAllCmd cmdName = true ∧ containsStr "all" argument = true)) ∧
    (teamFinderConvert cmdName teams argument = none ↔
      (∀ t ∈ teams, teamMatchesCode cmdName t argument = false) ∧
      ¬(includeAllCmd cmdName = true ∧ containsStr "all" argument = true)) := by
  constructor
  · intro k h
    simp only [teamFinderConvert] at h
    split_ifs at h with hall
    · have hk := head?_mem h
      rcases List.mem_append.mp hk with hk | hk
      · obtain ⟨t, ht, rfl⟩ := List.mem_map.mp hk
        have hf := List.of_mem_filter ht
        exact Or.inl ⟨t, List.mem_of_mem_filter ht, rfl, hf⟩
      · have hk : k = "all" := by simpa using hk
        exact Or.inr ⟨hk, Bool.and_eq_true _ _ |>.mp hall |>.1,
          Bool.and_eq_true _ _ |>.mp hall |>.2⟩
    · have hk := head?_mem h
      obtain ⟨t, ht, rfl⟩ := List.mem_map.mp hk
      have hf := List.of_mem_filter ht
      exact Or.inl ⟨t, List.mem_of_mem_filter ht, rfl, hf⟩
  · simp only [teamFinderConvert]
    split_ifs with hall
    · constructor
      · intro h
        exact absurd (List.head?_eq_none_iff.mp h) (by simp)
      · intro h
        exact absurd ⟨(Bool.and_eq_true _ _ |>.mp hall).1,
          (Bool.and_eq_true _ _ |>.mp hall).2⟩ h.2
    · rw [List.head?_eq_none_iff, List.map_eq_nil_iff, List.filter_eq_nil_iff]
      constructor
      · intro h
        refine ⟨fun t ht => by simpa using h t ht, ?_⟩
        intro hcon
        exact absurd (Bool.and_eq_true _ _ |>.mpr ⟨hcon.1, hcon.2⟩) hall
      · intro h t ht
        simp [h.1 t ht]

def nyRangers : TeamData := ⟨"New York Rangers", "NYR", ["Rangers"], true⟩

def teamAshley : TeamData := ⟨"Team Ashley", "ASH", [], true⟩

/-- C4 counterexample: (a) for the argument `"York"` and a table containing the
(real) team key `"New York Rangers"`, the code returns that key although
neither the full name, nor the tri-code, nor a nickname occurs as a word of the
argument — the claim instead requires `BadArgument`; (b) for the argument
`"Team Ashley"` and a table with the key `"Team Ashley"`, the full name occurs
as a word of the argument (so per the claim a key must be returned), but the
code skips every key containing `"Team"` and raises `BadArgument`. -/
theorem team_convert_counterexample :
    (teamFinderConvert "games" [nyRangers] "York" = some "New York Rangers" ∧
      teamMatchesClaim "games" nyRangers "York" = false) ∧
    (teamFinderConvert "games" [teamAshley] "Team Ashley" = none ∧
      teamMatchesClaim "games" teamAshley "Team Ashley" = true) := by
  refine ⟨⟨?_, ?_⟩, ?_, ?_⟩
  · decide
  · decide
  · decide
  · decide

theorem team_convert_characterization_witness :
    (∃ t ∈ [nyRangers], t.name = "New York Rangers" ∧
        teamMatchesCode "games" t "go Rangers" = true) ∨
      ("New York Rangers" = "all" ∧ includeAllCmd "games" = true ∧
        containsStr "all" "go Rangers" = true) :=
  (team_convert_characterization "games" [nyRangers] "go Rangers").1
    "New York Rangers" (by decide)

/-! ## `hockey/helper.py`: `DateFinder` and `DATE_RE`

`DATE_RE = ((19|20)\d\d)[- \/.](0[1-9]|1[012]|[1-9])[- \/.](0[1-9]|[12][0-9]|3[01]|[1-9])`.
`convert` searches the argument, builds `"{g1}-{g3}-{g4}"` and parses it with
`strptime("%Y-%m-%d")` — which *validates the calendar* and raises an uncaught
`ValueError` for dates such as `2021-02-31`; no match raises `BadArgument`.
`transform` is identical except that no match falls back to the current time.
The datetime value is modelled by its `(year, month, day)` triple (the
time-of-day/timezone normalisation `astimezone(utc)` carries no date content
from the argument).  Matching is modelled with Python's leftmost-match and
ordered-alternation (with backtracking) semantics.
-/

theorem char_le_iff (a b : Char) : a ≤ b ↔ a.toNat ≤ b.toNat := by
  rw [Char.le_def, UInt32.le_def, BitVec.le_def]
  rfl

theorem char_eq_of_toNat {a b : Char} (h : a.toNat = b.toNat) : a = b :=
  Char.ext (UInt32.ext h)

theorem char_eq_iff_toNat (a b : Char) : a = b ↔ a.toNat = b.toNat :=
  ⟨fun h => h ▸ rfl, char_eq_of_toNat⟩

theorem isDigit_iff (c : Char) : c.isDigit = true ↔ 48 ≤ c.toNat ∧ c.toNat ≤ 57 := by
  simp only [Char.isDigit, Bool.and_eq_true, decide_eq_true_eq, ge_iff_le]
  constructor
  · rintro ⟨h1, h2⟩
    rw [UInt32.le_def, BitVec.le_def] at h1 h2
    exact ⟨h1, h2⟩
  · rintro ⟨h1, h2⟩
    constructor
    · rw [UInt32.le_def, BitVec.le_def]
      exact h1
    · rw [UInt32.le_def, BitVec.le_def]
      exact h2

/-- The separator class `[- \/.]` of `DATE_RE`. -/
def isSep (c : Char) : Bool := c = '-' || c = ' ' || c = '/' || c = '.'

/-- The year group `((19|20)\d\d)`: deterministic, returns the year value and
the rest of the text. -/
def matchYear : List Char → Option (Nat × List Char)
  | c1 :: c2 :: c3 :: c4 :: rest =>
    if ((c1 = '1' ∧ c2 = '9') ∨ (c1 = '2' ∧ c2 = '0')) ∧ c3.isDigit ∧ c4.isDigit then
      some (1000 * digitVal c1 + 100 * digitVal c2 + 10 * digitVal c3 + digitVal c4, rest)
    else none
  | _ => none

/-- The month alternation `(0[1-9]|1[012]|[1-9])` as the ordered list of
possible (value, remaining text) parses. -/
def monthCands : List Char → List (Nat × List Char)
  | c1 :: c2 :: rest =>
    (if c1 = '0' ∧ '1' ≤ c2 ∧ c2 ≤ '9' then [(digitVal c2, rest)] else []) ++
    (if c1 = '1' ∧ (c2 = '0' ∨ c2 = '1' ∨ c2 = '2') then [(10 + digitVal c2, rest)] else []) ++
    (if '1' ≤ c1 ∧ c1 ≤ '9' then [(digitVal c1, c2 :: rest)] else [])
  | [c1] => if '1' ≤ c1 ∧ c1 ≤ '9' then [(digitVal c1, [])] else []
  | [] => []

/-- The day alternation `(0[1-9]|[12][0-9]|3[01]|[1-9])`, ordered. -/
def dayCands : List Char → List (Nat × List Char)
  | c1 :: c2 :: rest =>
    (if c1 = '0' ∧ '1' ≤ c2 ∧ c2 ≤ '9' then [(digitVal c2, rest)] else []) ++
    (if (c1 = '1' ∨ c1 = '2') ∧ c2.isDigit then
      [(10 * digitVal c1 + digitVal c2, rest)] else []) ++
    (if c1 = '3' ∧ (c2 = '0' ∨ c2 = '1') then [(30 + digitVal c2, rest)] else []) ++
    (if '1' ≤ c1 ∧ c1 ≤ '9' then [(digitVal c1, c2 :: rest)] else [])
  | [c1] => if '1' ≤ c1 ∧ c1 ≤ '9' then [(digitVal c1, [])] else []
  | [] => []

/-- One month candidate continued by separator and day (the day takes its first
alternative; nothing follows it in the pattern). -/
def matchDayPart : Nat × List Char → Option (Nat × Nat)
  | (_, []) => none
  | (m, sep2 :: r4) =>
    if isSep sep2 then
      (dayCands r4).head?.elim none (fun dr => some (m, dr.1))
    else none

/-- Separator, month (with backtracking over the alternation), separator, day. -/
def matchSepMonthDay : List Char → Option (Nat × Nat)
  | [] => none
  | sep1 :: r2 =>
    if isSep sep1 then (monthCands r2).findSome? matchDayPart else none

/-- `DATE_RE` matching anchored at the start of `s`. -/
def matchDateAt (s : List Char) : Option (Nat × Nat × Nat) :=
  (matchYear s).elim none (fun yr =>
    (matchSepMonthDay yr.2).elim none (fun md => some (yr.1, md.1, md.2)))

/-- `DATE_RE.search`: leftmost match. -/
def dateSearch : List Char → Option (Nat × Nat × Nat)
  | [] => none
  | c :: rest => (matchDateAt (c :: rest)).elim (dateSearch rest) some

/-- Gregorian leap year (as `strptime`/`datetime` validate it). -/
def isLeap (y : Nat) : Bool := y % 4 = 0 && (decide (y % 100 ≠ 0) || y % 400 = 0)

def daysInMonth (y m : Nat) : Nat :=
  if m = 2 then (if isLeap y then 29 else 28)
  else if m = 4 ∨ m = 6 ∨ m = 9 ∨ m = 11 then 30 else 31

/-- Does `strptime("%Y-%m-%d")` accept the day?  (The regex already guarantees
`1 ≤ m ≤ 12` and `1 ≤ d ≤ 31`.) -/
def validDate (y m d : Nat) : Bool := d ≤ daysInMonth y m

inductive DateConvertResult where
  | ok (y m d : Nat)
  | badArgument
  | valueError
deriving DecidableEq

/-- `DateFinder.convert`: the parsed date triple, `BadArgument` when `DATE_RE`
does not match, or the uncaught `ValueError` from `strptime` when the matched
text is not a real calendar date. -/
def dateFinderConvert (argument : String) : DateConvertResult :=
  (dateSearch argument.toList).elim .badArgument
    (fun r => if validDate r.1 r.2.1 r.2.2 then .ok r.1 r.2.1 r.2.2 else .valueError)

inductive DateTransformResult where
  | ok (y m d : Nat)
  | nowTime
  | valueError
deriving DecidableEq

/-- `DateFinder.transform`: like `convert` but a failed search returns
`datetime.now(timezone.utc)` instead of raising. -/
def dateFinderTransform (argument : String) : DateTransformResult :=
  (dateSearch argument.toList).elim .nowTime
    (fun r => if validDate r.1 r.2.1 r.2.2 then .ok r.1 r.2.1 r.2.2 else .valueError)

/-- A one- or two-digit token with value `v` (the spec's rendering of a month
or day number). -/
def DigitToken (l : List Char) (v : Nat) : Prop :=
  (∃ c, l = [c] ∧ c.isDigit = true ∧ v = digitVal c) ∨
  (∃ c1 c2, l = [c1, c2] ∧ c1.isDigit = true ∧ c2.isDigit = true ∧
    v = 10 * digitVal c1 + digitVal c2)

/-- The claim's date form, anchored at the start of `s`: a four-digit year in
1900–2099, a separator, a month 1–12, a separator, and a day 1–31, followed by
anything. -/
def FormAt (s : List Char) (y m d : Nat) : Prop :=
  ∃ (a b c e s1 : Char) (ms : List Char) (s2 : Char) (ds rest : List Char),
    s = a :: b :: c :: e :: s1 :: (ms ++ s2 :: (ds ++ rest)) ∧
    a.isDigit = true ∧ b.isDigit = true ∧ c.isDigit = true ∧ e.isDigit = true ∧
    y = 1000 * digitVal a + 100 * digitVal b + 10 * digitVal c + digitVal e ∧
    1900 ≤ y ∧ y ≤ 2099 ∧
    isSep s1 = true ∧ DigitToken ms m ∧ 1 ≤ m ∧ m ≤ 12 ∧
    isSep s2 = true ∧ DigitToken ds d ∧ 1 ≤ d ∧ d ≤ 31

/-- Some date form starts at the beginning of `s`. -/
def HasFormAt (s : List Char) : Prop := ∃ y m d, FormAt s y m d

theorem digitVal_le_nine {c : Char} (h : c.isDigit = true) : digitVal c ≤ 9 := by
  have := (isDigit_iff c).mp h
  simp only [digitVal]
  omega

theorem isDigit_of_between {c : Char} (h1 : '1' ≤ c) (h2 : c ≤ '9') : c.isDigit = true := by
  rw [char_le_iff] at h1 h2
  simp only [show Char.toNat '1' = 49 from rfl, show Char.toNat '9' = 57 from rfl] at h1 h2
  exact (isDigit_iff c).mpr ⟨by omega, h2⟩

theorem digitVal_pos_of_between {c : Char} (h1 : '1' ≤ c) (h2 : c ≤ '9') :
    1 ≤ digitVal c ∧ digitVal c ≤ 9 := by
  rw [char_le_iff] at h1 h2
  simp only [show Char.toNat '1' = 49 from rfl, show Char.toNat '9' = 57 from rfl] at h1 h2
  simp only [digitVal]
  omega

theorem between_of_digitVal_pos {c : Char} (hd : c.isDigit = true) (h1 : 1 ≤ digitVal c) :
    '1' ≤ c ∧ c ≤ '9' := by
  have hn := (isDigit_iff c).mp hd
  simp only [digitVal] at h1
  constructor <;> rw [char_le_iff] <;>
    simp only [show Char.toNat '1' = 49 from rfl, show Char.toNat '9' = 57 from rfl] <;>
    omega

theorem mem_if_singleton {α : Type} {P : Prop} [Decidable P] {x a : α}
    (h : a ∈ if P then [x] else []) : P ∧ a = x := by
  split_ifs at h with hp
  · exact ⟨hp, by simpa using h⟩
  · simp at h

theorem matchYear_eq_some {s : List Char} {y : Nat} {rest : List Char}
    (h : matchYear s = some (y, rest)) :
    ∃ a b c e, s = a :: b :: c :: e :: rest ∧
      a.isDigit = true ∧ b.isDigit = true ∧ c.isDigit = true ∧ e.isDigit = true ∧
      y = 1000 * digitVal a + 100 * digitVal b + 10 * digitVal c + digitVal e ∧
      1900 ≤ y ∧ y ≤ 2099 := by
  match s with
  | [] => simp [matchYear] at h
  | [_] => simp [matchYear] at h
  | [_, _] => simp [matchYear] at h
  | [_, _, _] => simp [matchYear] at h
  | c1 :: c2 :: c3 :: c4 :: r =>
    simp only [matchYear] at h
    split_ifs at h with hc
    simp only [Option.some_inj, Prod.mk.injEq] at h
    obtain ⟨hy, hr⟩ := h
    subst hr
    obtain ⟨h12, h3, h4⟩ := hc
    have h3' := digitVal_le_nine h3
    have h4' := digitVal_le_nine h4
    rcases h12 with ⟨rfl, rfl⟩ | ⟨rfl, rfl⟩ <;>
      refine ⟨_, _, c3, c4, rfl, by decide, by decide, h3, h4, hy.symm, ?_, ?_⟩ <;>
      · rw [← hy]
        simp only [show digitVal '1' = 1 from rfl, show digitVal '9' = 9 from rfl,
          show digitVal '2' = 2 from rfl, show digitVal '0' = 0 from rfl]
        omega

theorem toNat_eq_of_digit {c : Char} (h : c.isDigit = true) : c.toNat = digitVal c + 48 := by
  have := (isDigit_iff c).mp h
  simp only [digitVal]
  omega

theorem monthCands_mem {r2 : List Char} {m : Nat} {r3 : List Char}
    (h : (m, r3) ∈ monthCands r2) :
    ∃ ms, r2 = ms ++ r3 ∧ DigitToken ms m ∧ 1 ≤ m ∧ m ≤ 12 := by
  match r2 with
  | [] => simp [monthCands] at h
  | [c1] =>
    simp only [monthCands] at h
    obtain ⟨hp, he⟩ := mem_if_singleton h
    obtain ⟨hm, hr⟩ := Prod.mk.injEq _ _ _ _ ▸ he
    subst hm
    subst hr
    have hb := digitVal_pos_of_between hp.1 hp.2
    exact ⟨[c1], by simp, Or.inl ⟨c1, rfl, isDigit_of_between hp.1 hp.2, rfl⟩, hb.1, by omega⟩
  | c1 :: c2 :: rest =>
    simp only [monthCands] at h
    rcases List.mem_append.mp h with h' | h'
    · rcases List.mem_append.mp h' with h2 | h2
      · obtain ⟨hp, he⟩ := mem_if_singleton h2
        obtain ⟨hc1, hge, hle⟩ := hp
        obtain ⟨hm, hr⟩ := Prod.mk.injEq _ _ _ _ ▸ he
        subst hm
        subst hr
        subst hc1
        have hb := digitVal_pos_of_between hge hle
        refine ⟨['0', c2], by simp, Or.inr ⟨'0', c2, rfl, by decide,
          isDigit_of_between hge hle, ?_⟩, hb.1, by omega⟩
        simp [show digitVal '0' = 0 from rfl]
      · obtain ⟨hp, he⟩ := mem_if_singleton h2
        obtain ⟨hc1, hc2⟩ := hp
        obtain ⟨hm, hr⟩ := Prod.mk.injEq _ _ _ _ ▸ he
        subst hm
        subst hr
        subst hc1
        have hd2 : c2.isDigit = true := by rcases hc2 with rfl | rfl | rfl <;> decide
        have hv2 : digitVal c2 ≤ 2 := by rcases hc2 with rfl | rfl | rfl <;> decide
        refine ⟨['1', c2], by simp, Or.inr ⟨'1', c2, rfl, by decide, hd2, ?_⟩, by omega, by omega⟩
        simp [show digitVal '1' = 1 from rfl]
    · obtain ⟨hp, he⟩ := mem_if_singleton h'
      obtain ⟨hm, hr⟩ := Prod.mk.injEq _ _ _ _ ▸ he
      subst hm
      subst hr
      have hb := digitVal_pos_of_between hp.1 hp.2
      exact ⟨[c1], by simp, Or.inl ⟨c1, rfl, isDigit_of_between hp.1 hp.2, rfl⟩, hb.1, by omega⟩

theorem monthCands_complete {ms r3 : List Char} {m : Nat}
    (ht : DigitToken ms m) (h1 : 1 ≤ m) (h2 : m ≤ 12) :
    (m, r3) ∈ monthCands (ms ++ r3) := by
  rcases ht with ⟨c, rfl, hd, rfl⟩ | ⟨c1, c2, rfl, hd1, hd2, hv⟩
  · have hb := between_of_digitVal_pos hd h1
    match r3 with
    | [] =>
      simp only [List.cons_append, List.nil_append, monthCands]
      rw [if_pos ⟨hb.1, hb.2⟩]
      simp
    | c2' :: rest' =>
      simp only [List.cons_append, List.nil_append, monthCands]
      refine List.mem_append_right _ ?_
      rw [if_pos ⟨hb.1, hb.2⟩]
      simp
  · have v1 := digitVal_le_nine hd1
    have v2 := digitVal_le_nine hd2
    have hv1 : digitVal c1 = 0 ∨ digitVal c1 = 1 := by omega
    simp only [List.cons_append, monthCands]
    rcases hv1 with h0 | h1'
    · have hc1 : c1 = '0' := char_eq_of_toNat (by rw [toNat_eq_of_digit hd1, h0]; rfl)
      subst hc1
      have hm : m = digitVal c2 := by
        rw [hv]
        simp [show digitVal '0' = 0 from rfl]
      have hb2 := between_of_digitVal_pos hd2 (by omega)
      refine List.mem_append_left _ (List.mem_append_left _ ?_)
      rw [if_pos ⟨rfl, hb2.1, hb2.2⟩, hm]
      simp
    · have hc1 : c1 = '1' := char_eq_of_toNat (by rw [toNat_eq_of_digit hd1, h1']; rfl)
      subst hc1
      have hm : m = 10 + digitVal c2 := by
        rw [hv]
        simp [show digitVal '1' = 1 from rfl]
      have hv2 : digitVal c2 ≤ 2 := by omega
      have hc2 : c2 = '0' ∨ c2 = '1' ∨ c2 = '2' := by
        have hn2 := toNat_eq_of_digit hd2
        have : c2.toNat = 48 ∨ c2.toNat = 49 ∨ c2.toNat = 50 := by omega
        rcases this with h' | h' | h'
        · exact Or.inl (char_eq_of_toNat (by rw [h']; rfl))
        · exact Or.inr (Or.inl (char_eq_of_toNat (by rw [h']; rfl)))
        · exact Or.inr (Or.inr (char_eq_of_toNat (by rw [h']; rfl)))
      refine List.mem_append_left _ (List.mem_append_right _ ?_)
      rw [if_pos ⟨rfl, hc2⟩, hm]
      simp

theorem dayCands_mem {r4 : List Char} {d : Nat} {r5 : List Char}
    (h : (d, r5) ∈ dayCands r4) :
    ∃ ds, r4 = ds ++ r5 ∧ DigitToken ds d ∧ 1 ≤ d ∧ d ≤ 31 := by
  match r4 with
  | [] => simp [dayCands] at h
  | [c1] =>
    simp only [dayCands] at h
    obtain ⟨hp, he⟩ := mem_if_singleton h
    obtain ⟨hm, hr⟩ := Prod.mk.injEq _ _ _ _ ▸ he
    subst hm
    subst hr
    have hb := digitVal_pos_of_between hp.1 hp.2
    exact ⟨[c1], by simp, Or.inl ⟨c1, rfl, isDigit_of_between hp.1 hp.2, rfl⟩, hb.1, by omega⟩
  | c1 :: c2 :: rest =>
    simp only [dayCands] at h
    rcases List.mem_append.mp h with h' | h'
    · rcases List.mem_append.mp h' with h'' | h''
      · rcases List.mem_append.mp h'' with h3 | h3
        · obtain ⟨hp, he⟩ := mem_if_singleton h3
          obtain ⟨hc1, hge, hle⟩ := hp
          obtain ⟨hm, hr⟩ := Prod.mk.injEq _ _ _ _ ▸ he
          subst hm
          subst hr
          subst hc1
          have hb := digitVal_pos_of_between hge hle
          refine ⟨['0', c2], by simp, Or.inr ⟨'0', c2, rfl, by decide,
            isDigit_of_between hge hle, ?_⟩, hb.1, by omega⟩
          simp [show digitVal '0' = 0 from rfl]
        · obtain ⟨hp, he⟩ := mem_if_singleton h3
          obtain ⟨hc1, hd2⟩ := hp
          obtain ⟨hm, hr⟩ := Prod.mk.injEq _ _ _ _ ▸ he
          subst hm
          subst hr
          have hd1 : c1.isDigit = true := by rcases hc1 with rfl | rfl <;> decide
          have hv1 : 1 ≤ digitVal c1 ∧ digitVal c1 ≤ 2 := by
            rcases hc1 with rfl | rfl <;> decide
          have hv2 := digitVal_le_nine hd2
          exact ⟨[c1, c2], by simp, Or.inr ⟨c1, c2, rfl, hd1, hd2, rfl⟩, by omega, by omega⟩
      · obtain ⟨hp, he⟩ := mem_if_singleton h''
        obtain ⟨hc1, hc2⟩ := hp
        obtain ⟨hm, hr⟩ := Prod.mk.injEq _ _ _ _ ▸ he
        subst hm
        subst hr
        subst hc1
        have hd2 : c2.isDigit = true := by rcases hc2 with rfl | rfl <;> decide
        have hv2 : digitVal c2 ≤ 1 := by rcases hc2 with rfl | rfl <;> decide
        refine ⟨['3', c2], by simp, Or.inr ⟨'3', c2, rfl, by decide, hd2, ?_⟩, by omega, by omega⟩
        simp [show digitVal '3' = 3 from rfl]
    · obtain ⟨hp, he⟩ := mem_if_singleton h'
      obtain ⟨hm, hr⟩ := Prod.mk.injEq _ _ _ _ ▸ he
      subst hm
      subst hr
      have hb := digitVal_pos_of_between hp.1 hp.2
      exact ⟨[c1], by simp, Or.inl ⟨c1, rfl, isDigit_of_between hp.1 hp.2, rfl⟩, hb.1, by omega⟩

theorem dayCands_ne_nil {ds r5 : List Char} {d : Nat}
    (ht : DigitToken ds d) (h1 : 1 ≤ d) (h2 : d ≤ 31) :
    dayCands (ds ++ r5) ≠ [] := by
  rcases ht with ⟨c, rfl, hd, rfl⟩ | ⟨c1, c2, rfl, hd1, hd2, hv⟩
  · have hb := between_of_digitVal_pos hd h1
    match r5 with
    | [] =>
      simp only [List.cons_append, List.nil_append, dayCands]
      rw [if_pos ⟨hb.1, hb.2⟩]
      simp
    | c2' :: rest' =>
      have hx : (digitVal c, c2' :: rest') ∈ dayCands ([c] ++ c2' :: rest') := by
        simp only [List.cons_append, List.nil_append, dayCands]
        refine List.mem_append_right _ ?_
        rw [if_pos ⟨hb.1, hb.2⟩]
        exact List.mem_singleton_self _
      exact List.ne_nil_of_mem hx
  · have v1 := digitVal_le_nine hd1
    have v2 := digitVal_le_nine hd2
    have hv1 : digitVal c1 ≤ 3 := by omega
    interval_cases h0 : digitVal c1
    · have hc1 : c1 = '0' := char_eq_of_toNat (by rw [toNat_eq_of_digit hd1, h0]; rfl)
      subst hc1
      have hb2 := between_of_digitVal_pos hd2 (by omega)
      have hx : (digitVal c2, r5) ∈ dayCands (['0', c2] ++ r5) := by
        simp only [List.cons_append, List.nil_append, dayCands]
        refine List.mem_append_left _ (List.mem_append_left _ (List.mem_append_left _ ?_))
        rw [if_pos ⟨trivial, hb2.1, hb2.2⟩]
        exact List.mem_singleton_self _
      exact List.ne_nil_of_mem hx
    · have hc1 : c1 = '1' := char_eq_of_toNat (by rw [toNat_eq_of_digit hd1, h0]; rfl)
      subst hc1
      have hx : (10 * digitVal '1' + digitVal c2, r5) ∈ dayCands (['1', c2] ++ r5) := by
        simp only [List.cons_append, List.nil_append, dayCands]
        refine List.mem_append_left _ (List.mem_append_left _ (List.mem_append_right _ ?_))
        rw [if_pos ⟨Or.inl trivial, hd2⟩]
        exact List.mem_singleton_self _
      exact List.ne_nil_of_mem hx
    · have hc1 : c1 = '2' := char_eq_of_toNat (by rw [toNat_eq_of_digit hd1, h0]; rfl)
      subst hc1
      have hx : (10 * digitVal '2' + digitVal c2, r5) ∈ dayCands (['2', c2] ++ r5) := by
        simp only [List.cons_append, List.nil_append, dayCands]
        refine List.mem_append_left _ (List.mem_append_left _ (List.mem_append_right _ ?_))
        rw [if_pos ⟨Or.inr trivial, hd2⟩]
        exact List.mem_singleton_self _
      exact List.ne_nil_of_mem hx
    · have hc1 : c1 = '3' := char_eq_of_toNat (by rw [toNat_eq_of_digit hd1, h0]; rfl)
      subst hc1
      have hv2 : digitVal c2 ≤ 1 := by
        have h3 : digitVal '3' = 3 := rfl
        omega
      have hc2 : c2 = '0' ∨ c2 = '1' := by
        have hn2 := toNat_eq_of_digit hd2
        have : c2.toNat = 48 ∨ c2.toNat = 49 := by omega
        rcases this with h' | h'
        · exact Or.inl (char_eq_of_toNat (by rw [h']; rfl))
        · exact Or.inr (char_eq_of_toNat (by rw [h']; rfl))
      have hx : (30 + digitVal c2, r5) ∈ dayCands (['3', c2] ++ r5) := by
        simp only [List.cons_append, List.nil_append, dayCands]
        refine List.mem_append_left _ (List.mem_append_right _ ?_)
        rw [if_pos ⟨trivial, hc2⟩]
        exact List.mem_singleton_self _
      exact List.ne_nil_of_mem hx

theorem matchYear_complete {a b c e : Char} {rest : List Char} {y : Nat}
    (ha : a.isDigit = true) (hb : b.isDigit = true) (hc : c.isDigit = true)
    (he : e.isDigit = true)
    (hy : y = 1000 * digitVal a + 100 * digitVal b + 10 * digitVal c + digitVal e)
    (h1 : 1900 ≤ y) (h2 : y ≤ 2099) :
    matchYear (a :: b :: c :: e :: rest) = some (y, rest) := by
  have hna := (isDigit_iff a).mp ha
  have hnb := (isDigit_iff b).mp hb
  have hnc := (isDigit_iff c).mp hc
  have hne := (isDigit_iff e).mp he
  have hab : (a.toNat = 49 ∧ b.toNat = 57) ∨ (a.toNat = 50 ∧ b.toNat = 48) := by
    simp only [digitVal] at hy
    omega
  have hcond : ((a = '1' ∧ b = '9') ∨ (a = '2' ∧ b = '0')) := by
    rcases hab with ⟨ha', hb'⟩ | ⟨ha', hb'⟩
    · exact Or.inl ⟨char_eq_of_toNat (by rw [ha']; rfl), char_eq_of_toNat (by rw [hb']; rfl)⟩
    · exact Or.inr ⟨char_eq_of_toNat (by rw [ha']; rfl), char_eq_of_toNat (by rw [hb']; rfl)⟩
  simp only [matchYear]
  rw [if_pos ⟨hcond, hc, he⟩, hy]

theorem findSome?_isSome_of_mem {α β : Type} {l : List α} {f : α → Option β} {a : α}
    (ha : a ∈ l) (hf : (f a).isSome = true) : (l.findSome? f).isSome = true := by
  induction l with
  | nil => simp at ha
  | cons x t ih =>
    rcases hfx : f x with _ | b
    · rcases List.mem_cons.mp ha with rfl | ha'
      · rw [hfx] at hf
        simp at hf
      · simpa [List.findSome?_cons, hfx] using ih ha'
    · simp [List.findSome?_cons, hfx]

theorem matchDateAt_eq_some {s : List Char} {y m d : Nat}
    (h : matchDateAt s = some (y, m, d)) : FormAt s y m d := by
  unfold matchDateAt at h
  rcases hy : matchYear s with _ | yr
  · rw [hy] at h
    simp [Option.elim] at h
  · obtain ⟨y', r1⟩ := yr
    rw [hy] at h
    simp only [Option.elim] at h
    rcases hmd : matchSepMonthDay r1 with _ | md
    · rw [hmd] at h
      simp [Option.elim] at h
    · rw [hmd] at h
      simp only [Option.elim, Option.some_inj, Prod.mk.injEq] at h
      obtain ⟨h1, h2, h3⟩ := h
      obtain ⟨a, b, c, e, hs, ha, hb, hc4, he, hyv, hy1, hy2⟩ := matchYear_eq_some hy
      cases r1 with
      | nil => simp [matchSepMonthDay] at hmd
      | cons sep1 r2 =>
        simp only [matchSepMonthDay] at hmd
        split_ifs at hmd with hsep1
        obtain ⟨⟨m', r3⟩, hmem, hdp⟩ := List.exists_of_findSome?_eq_some hmd
        cases r3 with
        | nil => simp [matchDayPart] at hdp
        | cons sep2 r4 =>
          simp only [matchDayPart] at hdp
          split_ifs at hdp with hsep2
          rcases hdc : (dayCands r4).head? with _ | dr
          · rw [hdc] at hdp
            simp [Option.elim] at hdp
          · rw [hdc] at hdp
            simp only [Option.elim, Option.some_inj] at hdp
            obtain ⟨ds, hr4, hdt, hd1, hd31⟩ := dayCands_mem (head?_mem hdc)
            obtain ⟨ms, hr2, hmt, hm1, hm12⟩ := monthCands_mem hmem
            have hm' : md.1 = m' := by rw [← hdp]
            have hd' : md.2 = dr.1 := by rw [← hdp]
            refine ⟨a, b, c, e, sep1, ms, sep2, ds, dr.2, ?_, ha, hb, hc4, he, ?_,
              h1 ▸ hy1, h1 ▸ hy2, hsep1, ?_, ?_, ?_, hsep2, ?_, ?_, ?_⟩
            · rw [hs, hr2, hr4]
            · rw [← h1, hyv]
            · rw [← h2, hm']
              exact hmt
            · rw [← h2, hm']
              exact hm1
            · rw [← h2, hm']
              exact hm12
            · rw [← h3, hd']
              exact hdt
            · rw [← h3, hd']
              exact hd1
            · rw [← h3, hd']
              exact hd31

theorem matchDateAt_isSome {s : List Char} {y m d : Nat} (hf : FormAt s y m d) :
    (matchDateAt s).isSome = true := by
  obtain ⟨a, b, c, e, s1, ms, s2, ds, rest, hs, ha, hb, hc4, he, hyv, hy1, hy2, hs1, hmt,
    hm1, hm12, hs2, hdt, hd1, hd31⟩ := hf
  subst hs
  have hy : matchYear (a :: b :: c :: e :: (s1 :: (ms ++ s2 :: (ds ++ rest)))) =
      some (y, s1 :: (ms ++ s2 :: (ds ++ rest))) :=
    matchYear_complete ha hb hc4 he hyv hy1 hy2
  unfold matchDateAt
  rw [hy]
  simp only [Option.elim]
  have hdp : (matchDayPart (m, s2 :: (ds ++ rest))).isSome = true := by
    simp only [matchDayPart]
    rw [if_pos hs2]
    have hne : dayCands (ds ++ rest) ≠ [] := dayCands_ne_nil hdt hd1 hd31
    rcases hh : (dayCands (ds ++ rest)).head? with _ | dr
    · exact absurd (List.head?_eq_none_iff.mp hh) hne
    · simp [Option.elim]
  have hmem : (m, s2 :: (ds ++ rest)) ∈ monthCands (ms ++ (s2 :: (ds ++ rest))) :=
    monthCands_complete hmt hm1 hm12
  have hsome := findSome?_isSome_of_mem hmem hdp
  have hms : ∃ v, matchSepMonthDay (s1 :: (ms ++ s2 :: (ds ++ rest))) = some v := by
    simp only [matchSepMonthDay]
    rw [if_pos hs1]
    exact Option.isSome_iff_exists.mp hsome
  obtain ⟨v, hv⟩ := hms
  rw [hv]
  simp [Option.elim]

theorem matchDateAt_eq_none_iff {s : List Char} :
    matchDateAt s = none ↔ ¬ HasFormAt s := by
  constructor
  · rintro h ⟨y, m, d, hf⟩
    have := matchDateAt_isSome hf
    rw [h] at this
    simp at this
  · intro h
    rcases hm : matchDateAt s with _ | r
    · rfl
    · exact absurd ⟨r.1, r.2.1, r.2.2, matchDateAt_eq_some (by simpa using hm)⟩ h

theorem not_hasFormAt_nil : ¬ HasFormAt ([] : List Char) := by
  rintro ⟨y, m, d, a, b, c, e, s1, ms, s2, ds, rest, hs, -⟩
  simp at hs

theorem dateSearch_eq_none_iff (s : List Char) :
    dateSearch s = none ↔ ∀ i, ¬ HasFormAt (s.drop i) := by
  induction s with
  | nil =>
    constructor
    · intro _ i
      rw [List.drop_nil]
      exact not_hasFormAt_nil
    · intro _
      rfl
  | cons c rest ih =>
    constructor
    · intro h i
      rcases hm : matchDateAt (c :: rest) with _ | r
      · simp only [dateSearch, hm, Option.elim] at h
        cases i with
        | zero => exact matchDateAt_eq_none_iff.mp hm
        | succ j => exact (ih.mp h) j
      · simp only [dateSearch, hm, Option.elim] at h
        exact absurd h (by simp)
    · intro h
      have hm : matchDateAt (c :: rest) = none := matchDateAt_eq_none_iff.mpr (h 0)
      simp only [dateSearch, hm, Option.elim]
      exact ih.mpr fun i => h (i + 1)

theorem dateSearch_eq_some {s : List Char} {y m d : Nat}
    (h : dateSearch s = some (y, m, d)) :
    ∃ i, FormAt (s.drop i) y m d ∧ ∀ j, j < i → ¬ HasFormAt (s.drop j) := by
  induction s with
  | nil => simp [dateSearch] at h
  | cons c rest ih =>
    rcases hm : matchDateAt (c :: rest) with _ | r
    · simp only [dateSearch, hm, Option.elim] at h
      obtain ⟨i, hf, hmin⟩ := ih h
      refine ⟨i + 1, by simpa using hf, ?_⟩
      intro j hj
      cases j with
      | zero => exact matchDateAt_eq_none_iff.mp hm
      | succ j' => exact hmin j' (by omega)
    · simp only [dateSearch, hm, Option.elim, Option.some_inj] at h
      subst h
      exact ⟨0, matchDateAt_eq_some hm, fun j hj => absurd hj (by omega)⟩

/-- C3 counterexample: `"2021-02-31"` contains a date-form substring (so the
claim requires a parsed datetime or, failing that, `BadArgument`), but the
code raises the uncaught `ValueError` from `strptime`, since February has no
31st day. -/
theorem dateFinder_counterexample :
    dateFinderConvert "2021-02-31" = DateConvertResult.valueError ∧
      FormAt (String.toList "2021-02-31") 2021 2 31 := by
  constructor
  · decide
  · exact ⟨'2', '0', '2', '1', '-', ['0', '2'], '-', ['3', '1'], [], by decide, by decide,
      by decide, by decide, by decide, by decide, by decide, by decide, by decide,
      Or.inr ⟨'0', '2', rfl, by decide, by decide, by decide⟩, by decide, by decide,
      by decide, Or.inr ⟨'3', '1', rfl, by decide, by decide, by decide⟩, by decide, by decide⟩

/-- C3 (amended): `DateFinder.convert` raises `BadArgument` exactly when no
date-form substring (year 1900–2099, month 1–12, day 1–31, separated by
`-`, space, `/` or `.`) occurs in the argument; when it returns a datetime,
that datetime is parsed from a date form at the first position where any date
form starts and is a valid calendar date; when the date parsed at that first
position is not a valid calendar date it raises `ValueError` instead. -/
theorem dateFinder_characterization (argument : String) :
    (dateFinderConvert argument = DateConvertResult.badArgument ↔
      ∀ i, ¬ HasFormAt (argument.toList.drop i)) ∧
    (∀ y m d, dateFinderConvert argument = DateConvertResult.ok y m d →
      validDate y m d = true ∧
      ∃ i, FormAt (argument.toList.drop i) y m d ∧
        ∀ j, j < i → ¬ HasFormAt (argument.toList.drop j)) ∧
    (dateFinderConvert argument = DateConvertResult.valueError →
      ∃ y m d i, validDate y m d = false ∧ FormAt (argument.toList.drop i) y m d ∧
        ∀ j, j < i → ¬ HasFormAt (argument.toList.drop j)) := by
  refine ⟨⟨?_, ?_⟩, ?_, ?_⟩
  · intro h
    rcases hs : dateSearch argument.toList with _ | r
    · exact (dateSearch_eq_none_iff _).mp hs
    · exfalso
      simp only [dateFinderConvert, hs, Option.elim] at h
      split_ifs at h
  · intro h
    have hs : dateSearch argument.toList = none := (dateSearch_eq_none_iff _).mpr h
    unfold dateFinderConvert
    rw [hs]
    rfl
  · intro y m d h
    rcases hs : dateSearch argument.toList with _ | r
    · simp only [dateFinderConvert, hs, Option.elim] at h
      exact absurd h (by simp)
    · simp only [dateFinderConvert, hs, Option.elim] at h
      split_ifs at h with hv
      obtain ⟨h1, h2, h3⟩ := DateConvertResult.ok.injEq _ _ _ _ _ _ ▸ h
      subst h1
      subst h2
      subst h3
      exact ⟨hv, dateSearch_eq_some hs⟩
  · intro h
    rcases hs : dateSearch argument.toList with _ | r
    · simp only [dateFinderConvert, hs, Option.elim] at h
      exact absurd h (by simp)
    · simp only [dateFinderConvert, hs, Option.elim] at h
      split_ifs at h with hv
      obtain ⟨i, hf, hmin⟩ := dateSearch_eq_some
        (show dateSearch argument.toList = some (r.1, r.2.1, r.2.2) from hs)
      exact ⟨r.1, r.2.1, r.2.2, i, by simpa using hv, hf, hmin⟩

theorem dateFinder_characterization_witness :
    validDate 2021 5 6 = true ∧
      ∃ i, FormAt ((String.toList "on 2021-05-06").drop i) 2021 5 6 ∧
        ∀ j, j < i → ¬ HasFormAt ((String.toList "on 2021-05-06").drop j) :=
  (dateFinder_characterization "on 2021-05-06").2.1 2021 5 6 (by decide)

/-- C6 counterexample: on `"metro"`, `StandingsFinder.convert` returns
`"metropolitan"` (via its substring fallback) while `StandingsFinder.transform`
(which lacks the fallback) returns `""` — the same Transformer parses the same
argument to different values. -/
theorem transformer_agreement_counterexample :
    standingsConvert "metro" = "metropolitan" ∧ standingsTransform "metro" = "" := by
  constructor
  · decide
  · decide

/-- C6 (amended): `DateFinder.convert` and `DateFinder.transform` return the
same datetime whenever either returns one (they differ only when no date is
found: `convert` raises `BadArgument` while `transform` returns the current
time); `StandingsFinder.convert` and `StandingsFinder.transform` return equal
strings whenever `transform`'s result is nonempty (`convert` has a substring
fallback `transform` lacks). -/
theorem transformer_agreement (argument : String) :
    (∀ y m d, dateFinderConvert argument = DateConvertResult.ok y m d ↔
      dateFinderTransform argument = DateTransformResult.ok y m d) ∧
    (standingsTransform argument ≠ "" →
      standingsConvert argument = standingsTransform argument) := by
  constructor
  · intro y m d
    rcases hs : dateSearch argument.toList with _ | r <;>
      simp only [dateFinderConvert, dateFinderTransform, hs, Option.elim]
    · constructor <;> (intro h; exact absurd h (by simp))
    · split_ifs with hv
      · simp only [DateConvertResult.ok.injEq, DateTransformResult.ok.injEq]
      · constructor <;> (intro h; exact absurd h (by simp))
  · intro h
    have he : standingsExact argument ≠ "" := by
      intro h0
      apply h
      simp [standingsTransform, h0, lowerStr, lowerList]
    simp only [standingsConvert, standingsTransform, if_neg he]

theorem transformer_agreement_witness :
    standingsConvert "Pacific" = standingsTransform "Pacific" :=
  (transformer_agreement "Pacific").2 (by decide)

end TrustyCogs
